import Mathlib

/-!
Verification of the `quadtree` crate (an N-dimensional orthtree storing
point-keyed items) against its specification.

Shallow embedding notes.

* Finite `f64` values are modelled as rationals (`ℚ`).  The only place the
  code inspects non-finite values is `Interval::try_new`, which is modelled
  over an explicit IEEE-style value type `F` (finite / +inf / -inf / NaN)
  whose comparison semantics mirror `f64` (every comparison with NaN is
  false).

* The one floating-point operation whose rounding matters is
  `f64::midpoint` in `Interval::subdivide`: on a representable-width
  interval it returns the exact midpoint, but on an interval of width at or
  below one ulp it can return `start` again, which is exactly the collapse
  case the code tests with `self.start == midpoint`.  We therefore keep the
  midpoint function abstract: every definition that subdivides takes a
  parameter `mid : ℚ → ℚ → ℚ`, and theorems that need it assume the bounds
  `a ≤ mid a b ≤ b` (for `a < b`) guaranteed by `f64::midpoint` on finite
  inputs (`MidValid`).  The exact rational midpoint `ratMid` is one
  instance; `fun a _ => a` models a fully collapsed (unsplittable) axis.

* `Point<N>` is a fixed-size array of coordinates; we use `List ℚ` and
  carry the length (= dimension) as hypotheses where it matters, mirroring
  what the Rust type system enforces with the const generic `N`.

* `Vec::with_capacity(max_points)` together with the guard
  `points.len() < points.capacity()` means the bucket never grows past the
  requested capacity and the capacity itself never changes; we store that
  capacity as a `Nat` field.  `NonZero<usize>` makes it positive; theorems
  take `1 ≤ cap` as a hypothesis where the behaviour depends on it.

* Rust mutates the tree in place and an `insert` can both mutate and return
  an error, so the embedded `insert` returns the post-call tree paired with
  an optional error.
-/

namespace QuadtreeSpec

/-- IEEE-style `f64` value for the constructor checks of `Interval::try_new`:
a finite value (modelled exactly as a rational), one of the two infinities,
or NaN. -/
inductive F : Type where
  | fin (q : ℚ)
  | posInf
  | negInf
  | nan
deriving DecidableEq

/-- `f64::is_finite`. -/
def F.isFinite : F → Bool
  | .fin _ => true
  | _ => false

/-- IEEE `<` on `f64` values: any comparison involving NaN is false. -/
def F.lt : F → F → Bool
  | .fin a, .fin b => decide (a < b)
  | .fin _, .posInf => true
  | .fin _, .negInf => false
  | .fin _, .nan => false
  | .posInf, _ => false
  | .negInf, .fin _ => true
  | .negInf, .posInf => true
  | .negInf, .negInf => false
  | .negInf, .nan => false
  | .nan, _ => false

/-- IEEE `>=` on `f64` values: any comparison involving NaN is false. -/
def F.ge : F → F → Bool
  | .fin a, .fin b => decide (b ≤ a)
  | .fin _, .posInf => false
  | .fin _, .negInf => true
  | .fin _, .nan => false
  | .posInf, .nan => false
  | .posInf, _ => true
  | .negInf, .negInf => true
  | .negInf, _ => false
  | .nan, _ => false

/-- The finite payload of an `F` (0 for the non-finite values; only read
after the finiteness checks have passed). -/
def F.toRat : F → ℚ
  | .fin q => q
  | _ => 0

/-- `Interval` (interval.rs): a half-open range `[start, end)` on one axis.
The Rust field `end` is called `stop` here because `end` is a Lean keyword.
`Interval::subdivide` builds intervals with a struct literal, bypassing the
`try_new` validation, so no invariant is baked into the structure. -/
structure Interval : Type where
  start : ℚ
  stop : ℚ
deriving DecidableEq

/-- `Interval::try_new` (interval.rs:13-18): requires `start < end` (IEEE
comparison) and both bounds finite. -/
def Interval.tryNew (s e : F) : Option Interval :=
  if F.lt s e && F.isFinite s && F.isFinite e then
    some ⟨F.toRat s, F.toRat e⟩
  else
    none

/-- `Interval::contains` (interval.rs:28-30): `start <= v && v < end`. -/
def Interval.contains (i : Interval) (v : ℚ) : Bool :=
  decide (i.start ≤ v) && decide (v < i.stop)

/-- `Interval::subdivide` (interval.rs:32-49): split at `mid start end`; if
the midpoint equals `start` (interval too small to split) yield the interval
itself, otherwise the two halves sharing the midpoint. -/
def Interval.subdivide (mid : ℚ → ℚ → ℚ) (i : Interval) : List Interval :=
  let m := mid i.start i.stop
  if i.start = m then [i]
  else [⟨i.start, m⟩, ⟨m, i.stop⟩]

/-- `Interval::intersects` (interval.rs:51-53):
`start < other.end && other.start < end`. -/
def Interval.intersects (i j : Interval) : Bool :=
  decide (i.start < j.stop) && decide (j.start < i.stop)

/-- The bounds `f64::midpoint` guarantees for finite `a < b`; the abstract
midpoint functions our theorems quantify over are assumed to satisfy them. -/
def MidValid (mid : ℚ → ℚ → ℚ) : Prop :=
  ∀ a b : ℚ, a < b → a ≤ mid a b ∧ mid a b ≤ b

/-- The exact midpoint: the value of `f64::midpoint` whenever `(a + b) / 2`
is representable, in particular on all concrete inputs used below. -/
def ratMid (a b : ℚ) : ℚ := (a + b) / 2

/-- `Point<N>` (point.rs): an array of N coordinates (`OrderedFloat<f64>`);
finite coordinates modelled as rationals, the dimension as the list length. -/
abbrev Point : Type := List ℚ

/-- `Region<N>` (region.rs): an array of N intervals, one per axis. -/
abbrev Region : Type := List Interval

/-- `Region::contains` (region.rs:35-40): zip the axis intervals with the
coordinates and require every axis to contain its coordinate. -/
def Region.contains (r : Region) (p : Point) : Bool :=
  (r.zip p).all fun iv => Interval.contains iv.1 iv.2

/-- `itertools::multi_cartesian_product` (used by `Region::subdivide`):
all ways of picking one element from each list, first factor varying
slowest. -/
def cartProd {α : Type} : List (List α) → List (List α)
  | [] => [[]]
  | xs :: rest => xs.flatMap fun x => (cartProd rest).map fun ys => x :: ys

/-- `Region::subdivide` (region.rs:42-60): the cartesian product of each
axis interval subdivision. -/
def Region.subdivide (mid : ℚ → ℚ → ℚ) (r : Region) : List Region :=
  cartProd (r.map (Interval.subdivide mid))

/-- `Region::intersects` (region.rs:62-67): every axis pair must intersect. -/
def Region.intersects (r o : Region) : Bool :=
  (r.zip o).all fun ab => Interval.intersects ab.1 ab.2

/-- The two error cases `QuadTree::insert` can produce (quadtree.rs:74,95):
the point is outside the region of a leaf with room, or no subtree claimed
the point. -/
inductive QErr : Type where
  | outOfBounds
  | noSubtree
deriving DecidableEq

/-- `QuadTree<N, V>` (quadtree.rs:52-57): a region, a bucket of stored items
(capacity recorded alongside, since `Vec::with_capacity` fixes it and the
code only pushes while `len < capacity`), and optional child nodes. -/
inductive QTree (V : Type) : Type where
  | node (region : Region) (cap : Nat) (pts : List V) (subs : Option (List (QTree V)))

/-- `QuadTree::new` (quadtree.rs:61-67): a leaf with an empty bucket. -/
def QTree.new {V : Type} (r : Region) (cap : Nat) : QTree V :=
  .node r cap [] none

def QTree.region {V : Type} : QTree V → Region
  | .node r _ _ _ => r

def QTree.cap {V : Type} : QTree V → Nat
  | .node _ c _ _ => c

def QTree.pts {V : Type} : QTree V → List V
  | .node _ _ ps _ => ps

def QTree.subs {V : Type} : QTree V → Option (List (QTree V))
  | .node _ _ _ s => s

/-- `QuadTree::subdivide` (quadtree.rs:98-111): one fresh child per
subdivision box, same capacity. -/
def mkChildren {V : Type} (mid : ℚ → ℚ → ℚ) (r : Region) (c : Nat) :
    List (QTree V) :=
  (Region.subdivide mid r).map fun r2 => QTree.new r2 c

/-- Append an item to the bucket of a node. -/
def QTree.push {V : Type} : QTree V → V → QTree V
  | .node r c ps subs, v => .node r c (ps ++ [v]) subs

/-- The delegation loop of `QuadTree::insert` (quadtree.rs:84-92) run on the
children freshly created by `subdivide`: the first child whose region
contains the point receives `subtree.insert(point)`.  A fresh child is a
leaf with an empty bucket, and the Rust capacity type `NonZero<usize>`
makes its capacity at least 1, so that recursive call simply appends the
point; that single step is inlined here (it is also the reason the Rust
recursion terminates).  If no child contains the point the loop falls
through to `bail!` (quadtree.rs:95). -/
def insertFresh {V : Type} (pt : V → Point) :
    List (QTree V) → V → List (QTree V) × Option QErr
  | [], _ => ([], some .noSubtree)
  | t :: ts, v =>
    if Region.contains t.region (pt v) then
      (t.push v :: ts, none)
    else
      ((t :: (insertFresh pt ts v).1), (insertFresh pt ts v).2)

mutual

/-- `QuadTree::insert` (quadtree.rs:71-96).  If the bucket has room, check
containment and either append or fail with `OutOfBoundsError`; otherwise
subdivide if there are no children yet, then delegate to the first child
whose region contains the point, failing if none does.  Rust mutates in
place, so the post-call tree is returned together with the optional error:
in particular the subdivision performed before the failing delegation loop
is kept, exactly as in the Rust code. -/
def insertT {V : Type} (pt : V → Point) (mid : ℚ → ℚ → ℚ) :
    QTree V → V → QTree V × Option QErr
  | .node r c ps subs, v =>
    if ps.length < c then
      if Region.contains r (pt v) then (.node r c (ps ++ [v]) subs, none)
      else (.node r c ps subs, some .outOfBounds)
    else
      match subs with
      | some l =>
        (.node r c ps (some (insertL pt mid l v).1), (insertL pt mid l v).2)
      | none =>
        (.node r c ps (some (insertFresh pt (mkChildren mid r c) v).1),
          (insertFresh pt (mkChildren mid r c) v).2)

/-- The delegation loop of `QuadTree::insert` (quadtree.rs:84-92) over
existing children: the first child whose region contains the point receives
the recursive insert; if none does, `bail!` (quadtree.rs:95). -/
def insertL {V : Type} (pt : V → Point) (mid : ℚ → ℚ → ℚ) :
    List (QTree V) → V → List (QTree V) × Option QErr
  | [], _ => ([], some .noSubtree)
  | t :: ts, v =>
    if Region.contains t.region (pt v) then
      ((insertT pt mid t v).1 :: ts, (insertT pt mid t v).2)
    else
      ((t :: (insertL pt mid ts v).1), (insertL pt mid ts v).2)

end

mutual

/-- `QuadTree::query` (quadtree.rs:114-131) with the query decomposed into
its bounding region `qr` (`query.region()`) and fine predicate `qc`
(`query.contains`): yield the matching items of the own bucket, then the
query results of every child whose region intersects `qr`. -/
def queryT {V : Type} (pt : V → Point) (qr : Region) (qc : Point → Bool) :
    QTree V → List V
  | .node _ _ ps subs =>
    (ps.filter fun v => qc (pt v)) ++
      match subs with
      | none => []
      | some l => queryL pt qr qc l

/-- The child part of `QuadTree::query` (quadtree.rs:123-128): children are
filtered by `subtree.region.intersects(query.region())` and their query
results concatenated in order. -/
def queryL {V : Type} (pt : V → Point) (qr : Region) (qc : Point → Bool) :
    List (QTree V) → List V
  | [] => []
  | t :: ts =>
    (if Region.intersects t.region qr then queryT pt qr qc t else []) ++
      queryL pt qr qc ts

end

mutual

/-- All items stored anywhere in the tree, own bucket first. -/
def allItems {V : Type} : QTree V → List V
  | .node _ _ ps none => ps
  | .node _ _ ps (some l) => ps ++ allItemsL l

def allItemsL {V : Type} : List (QTree V) → List V
  | [] => []
  | t :: ts => allItems t ++ allItemsL ts

end

mutual

/-- The structural invariant of trees built by `insert` from a fresh tree
(claim C10): positive capacity, bucket within capacity, every bucket item
dimensioned like and contained in the region of its node, and, once
children exist: the bucket is exactly full (subdivision only ever happens
on a full bucket), the child regions are exactly the boxes of the parent
region subdivision in order, and every child has the same capacity and
satisfies the invariant recursively. -/
def WF {V : Type} (pt : V → Point) (mid : ℚ → ℚ → ℚ) : QTree V → Prop
  | .node r c ps subs =>
    1 ≤ c ∧ ps.length ≤ c ∧
    (∀ v ∈ ps, (pt v).length = r.length ∧ Region.contains r (pt v) = true) ∧
    match subs with
    | none => True
    | some l =>
      ps.length = c ∧ l.map QTree.region = Region.subdivide mid r ∧
      (∀ t ∈ l, QTree.cap t = c) ∧ WFL pt mid l

def WFL {V : Type} (pt : V → Point) (mid : ℚ → ℚ → ℚ) :
    List (QTree V) → Prop
  | [] => True
  | t :: ts => WF pt mid t ∧ WFL pt mid ts

end

/-- Insert a list of items in order, stopping at the first error (the way
the tests drive `insert` with `?`/`unwrap`); returns the final tree and the
first error, if any. -/
def insertMany {V : Type} (pt : V → Point) (mid : ℚ → ℚ → ℚ)
    (t : QTree V) : List V → QTree V × Option QErr
  | [] => (t, none)
  | v :: vs =>
    match insertT pt mid t v with
    | (t2, none) => insertMany pt mid t2 vs
    | (t2, some e) => (t2, some e)

/-- Insert a list of items in order, keeping going past errors (an
arbitrary sequence of `insert` calls on the same tree). -/
def insertAll {V : Type} (pt : V → Point) (mid : ℚ → ℚ → ℚ)
    (t : QTree V) : List V → QTree V
  | [] => t
  | v :: vs => insertAll pt mid (insertT pt mid t v).1 vs

/-- Modelled from the spec: the `DistanceQuery` type (query.rs) is missing
from the crate snapshot; only its caller `Point::to_distance_based_query`
(point.rs:106-108) and its uses in the tests are present.  Per the spec it
holds a center Point and a radius. -/
structure DistanceQuery : Type where
  center : Point
  radius : ℚ

/-- Modelled from the spec: the bounding Region of a `DistanceQuery` is the
axis-aligned hypercube `[center_i − r, center_i + r]` per axis. -/
def DistanceQuery.region (q : DistanceQuery) : Region :=
  q.center.map fun ci => ⟨ci - q.radius, ci + q.radius⟩

/-- The squared Euclidean distance between two points; `Point::distance`
(point.rs:91-104) is the square root of this sum, which lives in ℝ and is
taken in the theorem statements. -/
def sqDist (p o : Point) : ℚ :=
  ((p.zip o).map fun ab => (ab.1 - ab.2) * (ab.1 - ab.2)).sum

/-- Modelled from the spec: the fine predicate of a `DistanceQuery` is
`euclidean_distance(center, point) ≤ radius`, expressed here without the
square root (equivalent for the reachable inputs, see the claim C9
theorem). -/
def DistanceQuery.containsQ (q : DistanceQuery) (p : Point) : Bool :=
  decide (0 ≤ q.radius) && decide (sqDist q.center p ≤ q.radius * q.radius)

/-- `Point::to_distance_based_query` (point.rs:106-108): builds the
`DistanceQuery` with this point as center and the given distance as
radius. -/
def toDistanceBasedQuery (p : Point) (distance : ℚ) : DistanceQuery :=
  ⟨p, distance⟩

/-- The region `[0,10)×[0,10)` of the spec §8 scenario (and of most of the
crate tests). -/
def scenarioRegion : Region := [⟨0, 10⟩, ⟨0, 10⟩]

/-- The four points `(0,0),(1,0),(2,0),(3,0)` of the spec §8 scenario. -/
def scenarioPoints : List Point := [[0, 0], [1, 0], [2, 0], [3, 0]]

/-- The scenario tree after inserting the four points (capacity 4);
`Point` is its own `Storable` (point.rs:112-120), so the key function is
`id` and the midpoint on the scenario values is the exact `ratMid`. -/
def scenarioT4 : QTree Point :=
  (insertMany id ratMid (QTree.new scenarioRegion 4) scenarioPoints).1

/-- The scenario tree after additionally inserting `(5,5)`. -/
def scenarioT5 : QTree Point := (insertT id ratMid scenarioT4 [5, 5]).1

/-- A full one-node tree over the scenario region with capacity 1. -/
def c1TreeFull : QTree Point :=
  (insertT id ratMid (QTree.new scenarioRegion 1) [0, 0]).1

/-- One-dimensional trees holding `{1, 2}` inserted in the two orders
(region `[0,10)`, capacity 1). -/
def c8TreeA : QTree Point :=
  (insertMany id ratMid (QTree.new [⟨0, 10⟩] 1) [[1], [2]]).1

def c8TreeB : QTree Point :=
  (insertMany id ratMid (QTree.new [⟨0, 10⟩] 1) [[2], [1]]).1

/-- One-dimensional trees over the region `[6,8)` (capacity 1) holding the
points `{7, 6.5}` inserted in the two orders; all values, including the
midpoint `f64::midpoint(6,8) = 7`, are exact in `f64`. -/
def c8dTreeA : QTree Point :=
  (insertMany id ratMid (QTree.new [⟨6, 8⟩] 1) [[7], [13 / 2]]).1

def c8dTreeB : QTree Point :=
  (insertMany id ratMid (QTree.new [⟨6, 8⟩] 1) [[13 / 2], [7]]).1

theorem ratMid_valid : MidValid ratMid := by
  intro a b h
  constructor
  · simp only [ratMid]
    linarith
  · simp only [ratMid]
    linarith

/-- Structural induction for `QTree` through the nested `List`. -/
theorem QTree.ind {V : Type} {motive : QTree V → Prop}
    (h : ∀ r c ps subs,
        (∀ l, subs = some l → ∀ t ∈ l, motive t) → motive (.node r c ps subs)) :
    ∀ t, motive t := by
  have key : ∀ n (t : QTree V), sizeOf t ≤ n → motive t := by
    intro n
    induction n with
    | zero =>
      intro t ht
      cases t with
      | node r c ps subs => simp [QTree.node.sizeOf_spec] at ht
    | succ n ih =>
      intro t ht
      cases t with
      | node r c ps subs =>
        apply h
        rintro l rfl t htl
        apply ih
        have h1 : sizeOf t < sizeOf l := List.sizeOf_lt_of_mem htl
        simp [QTree.node.sizeOf_spec, Option.some.sizeOf_spec] at ht
        omega
  intro t
  exact key (sizeOf t) t le_rfl

/-! Basic lemmas about intervals, the cartesian product and regions. -/

theorem Interval.contains_iff {i : Interval} {v : ℚ} :
    Interval.contains i v = true ↔ i.start ≤ v ∧ v < i.stop := by
  simp [Interval.contains]

theorem Interval.intersects_iff {i j : Interval} :
    Interval.intersects i j = true ↔ i.start < j.stop ∧ j.start < i.stop := by
  simp [Interval.intersects]

/-- Two intervals sharing a point intersect. -/
theorem Interval.intersects_of_common {i j : Interval} {v : ℚ}
    (hi : Interval.contains i v = true) (hj : Interval.contains j v = true) :
    Interval.intersects i j = true := by
  rw [Interval.contains_iff] at hi hj
  rw [Interval.intersects_iff]
  constructor <;> linarith [hi.1, hi.2, hj.1, hj.2]

/-- Whatever value the midpoint function returns, a value of the interval
lies in exactly one of the parts produced by `Interval::subdivide`. -/
theorem Interval.subdivide_one_count (mid : ℚ → ℚ → ℚ) {i : Interval} {v : ℚ}
    (h : Interval.contains i v = true) :
    (Interval.subdivide mid i).countP (fun j => Interval.contains j v) = 1 := by
  rw [Interval.contains_iff] at h
  unfold Interval.subdivide
  by_cases hc : i.start = mid i.start i.stop
  · simp only [if_pos hc, List.countP_cons, List.countP_nil]
    have : Interval.contains i v = true := Interval.contains_iff.mpr h
    simp [this]
  · simp only [if_neg hc, List.countP_cons, List.countP_nil]
    by_cases hv : v < mid i.start i.stop
    · have h1 : Interval.contains ⟨i.start, mid i.start i.stop⟩ v = true := by
        rw [Interval.contains_iff]; exact ⟨h.1, hv⟩
      have h2 : Interval.contains ⟨mid i.start i.stop, i.stop⟩ v = false := by
        rw [Bool.eq_false_iff]
        intro hx
        rw [Interval.contains_iff] at hx
        exact absurd hv (not_lt.mpr hx.1)
      simp [h1, h2]
    · have h1 : Interval.contains ⟨i.start, mid i.start i.stop⟩ v = false := by
        rw [Bool.eq_false_iff]
        intro hx
        rw [Interval.contains_iff] at hx
        exact hv hx.2
      have h2 : Interval.contains ⟨mid i.start i.stop, i.stop⟩ v = true := by
        rw [Interval.contains_iff]; exact ⟨not_lt.mp hv, h.2⟩
      simp [h1, h2]

/-- With a midpoint inside the interval, each part of the subdivision is a
subset of the interval. -/
theorem Interval.subdivide_part_sub {mid : ℚ → ℚ → ℚ} (hm : MidValid mid)
    {i j : Interval} (hv : i.start < i.stop)
    (hj : j ∈ Interval.subdivide mid i) {v : ℚ}
    (h : Interval.contains j v = true) : Interval.contains i v = true := by
  obtain ⟨h1, h2⟩ := hm i.start i.stop hv
  unfold Interval.subdivide at hj
  by_cases hc : i.start = mid i.start i.stop
  · simp only [if_pos hc, List.mem_singleton] at hj
    exact hj ▸ h
  · simp only [if_neg hc, List.mem_cons, List.mem_singleton, List.not_mem_nil,
      or_false] at hj
    rw [Interval.contains_iff] at h ⊢
    rcases hj with hj | hj <;> subst hj <;> simp only at h
    · exact ⟨h.1, lt_of_lt_of_le h.2 h2⟩
    · exact ⟨le_trans h1 h.1, h.2⟩

theorem Region.contains_nil_left {p : Point} :
    Region.contains [] p = true := by
  simp [Region.contains]

theorem Region.contains_nil_right {r : Region} :
    Region.contains r [] = true := by
  simp [Region.contains]

theorem Region.contains_cons {i : Interval} {r : Region} {v : ℚ} {p : Point} :
    Region.contains (i :: r) (v :: p) =
      (Interval.contains i v && Region.contains r p) := by
  simp [Region.contains]

theorem Region.intersects_cons {i j : Interval} {r o : Region} :
    Region.intersects (i :: r) (j :: o) =
      (Interval.intersects i j && Region.intersects r o) := by
  simp [Region.intersects]

/-- A region all of whose axes actually contain a coordinate of a
full-dimensional point is non-degenerate on every axis. -/
theorem validR_of_contains {r : Region} {p : Point}
    (hl : p.length = r.length) (h : Region.contains r p = true) :
    ∀ i ∈ r, i.start < i.stop := by
  induction r generalizing p with
  | nil => simp
  | cons i r ih =>
    cases p with
    | nil => simp at hl
    | cons v p =>
      rw [Region.contains_cons, Bool.and_eq_true] at h
      intro j hj
      rcases List.mem_cons.mp hj with hj | hj
      · subst hj
        rw [Interval.contains_iff] at h
        exact lt_of_le_of_lt h.1.1 h.1.2
      · exact ih (by simpa using hl) h.2 j hj

/-- Two regions of equal dimension sharing a full-dimensional point
intersect. -/
theorem Region.intersects_of_mem {r o : Region} {p : Point}
    (hl : r.length = o.length) (hp : r.length ≤ p.length)
    (h1 : Region.contains r p = true) (h2 : Region.contains o p = true) :
    Region.intersects r o = true := by
  induction r generalizing o p with
  | nil =>
    cases o with
    | nil => simp [Region.intersects]
    | cons _ _ => simp at hl
  | cons i r ih =>
    cases o with
    | nil => simp at hl
    | cons j o =>
      cases p with
      | nil => simp at hp
      | cons v p =>
        rw [Region.contains_cons, Bool.and_eq_true] at h1 h2
        rw [Region.intersects_cons, Bool.and_eq_true]
        exact ⟨Interval.intersects_of_common h1.1 h2.1,
          ih (by simpa using hl) (by simpa using hp) h1.2 h2.2⟩

/-- Membership in the cartesian product: pick one element per factor. -/
theorem mem_cartProd {α : Type} {ls : List (List α)} {b : List α} :
    b ∈ cartProd ls ↔ List.Forall₂ (fun x xs => x ∈ xs) b ls := by
  induction ls generalizing b with
  | nil =>
    simp only [cartProd, List.mem_singleton]
    constructor
    · rintro rfl; exact List.Forall₂.nil
    · intro h; cases h; rfl
  | cons xs rest ih =>
    simp only [cartProd, List.mem_flatMap, List.mem_map]
    constructor
    · rintro ⟨x, hx, ys, hys, rfl⟩
      exact List.Forall₂.cons hx (ih.mp hys)
    · intro h
      cases h with
      | cons hx hys => exact ⟨_, hx, _, ih.mpr hys, rfl⟩

theorem length_of_mem_cartProd {α : Type} {ls : List (List α)} {b : List α}
    (h : b ∈ cartProd ls) : b.length = ls.length :=
  (mem_cartProd.mp h).length_eq

/-- Every box of a region subdivision has the dimension of the region. -/
theorem Region.subdivide_mem_length {mid : ℚ → ℚ → ℚ} {r : Region} {b : Region}
    (h : b ∈ Region.subdivide mid r) : b.length = r.length := by
  have := length_of_mem_cartProd h
  simpa using this

/-- Counting over a flatMap is summing the counts. -/
theorem countP_flatMap {α β : Type} (f : α → List β) (p : β → Bool) :
    ∀ l : List α, (l.flatMap f).countP p = (l.map fun a => (f a).countP p).sum := by
  intro l
  induction l with
  | nil => simp
  | cons a l ih => simp [List.countP_append, ih]

theorem sum_map_cond {α : Type} (q : α → Bool) (k : Nat) :
    ∀ l : List α, (l.map fun x => cond (q x) k 0).sum = k * l.countP q := by
  intro l
  induction l with
  | nil => simp
  | cons a l ih =>
    by_cases h : q a = true
    · simp [h, ih, List.countP_cons, Nat.mul_add, Nat.add_comm]
    · simp only [Bool.not_eq_true] at h
      simp [h, ih, List.countP_cons]

theorem countP_and_const {α : Type} (b : Bool) (p : α → Bool) (l : List α) :
    (l.countP fun y => b && p y) = cond b (l.countP p) 0 := by
  cases b with
  | true => simp
  | false => simp [List.countP_eq_zero]

/-- The number of boxes of a cartesian product containing a point of full
dimension is the product over the axes of the number of parts containing
the coordinate. -/
theorem cartProd_countP :
    ∀ (ls : List (List Interval)) (p : List ℚ), p.length = ls.length →
      (cartProd ls).countP (fun box => Region.contains box p) =
        ((ls.zip p).map fun xv =>
          xv.1.countP fun i => Interval.contains i xv.2).prod := by
  intro ls
  induction ls with
  | nil =>
    intro p hp
    rw [List.length_nil, List.length_eq_zero] at hp
    subst hp
    simp [cartProd, Region.contains]
  | cons xs rest ih =>
    intro p hp
    cases p with
    | nil => simp at hp
    | cons v pr =>
      simp only [cartProd, List.zip_cons_cons, List.map_cons, List.prod_cons]
      rw [countP_flatMap]
      have hrow : ∀ x : Interval,
          ((cartProd rest).map fun ys => x :: ys).countP
              (fun box => Region.contains box (v :: pr)) =
            cond (Interval.contains x v)
              ((cartProd rest).countP fun box => Region.contains box pr) 0 := by
        intro x
        rw [List.countP_map]
        have : ((fun box => Region.contains box (v :: pr)) ∘ fun ys => x :: ys) =
            fun ys => Interval.contains x v && Region.contains ys pr := by
          funext ys
          simp [Region.contains_cons]
        rw [this, countP_and_const]
      calc (xs.map fun x => ((cartProd rest).map fun ys => x :: ys).countP
              (fun box => Region.contains box (v :: pr))).sum
          = (xs.map fun x => cond (Interval.contains x v)
              ((cartProd rest).countP fun box => Region.contains box pr) 0).sum := by
            congr 1
            exact List.map_congr_left fun x _ => hrow x
        _ = ((cartProd rest).countP fun box => Region.contains box pr) *
              (xs.countP fun i => Interval.contains i v) := by
            rw [sum_map_cond]
        _ = (xs.countP fun i => Interval.contains i v) *
              ((rest.zip pr).map fun xv =>
                xv.1.countP fun i => Interval.contains i xv.2).prod := by
            rw [ih pr (by simpa using hp), Nat.mul_comm]

/-- Claim C6 core: a full-dimensional point of a region lies in exactly one
box of the subdivision of the region, whatever the midpoint function does. -/
theorem Region.subdivide_countP (mid : ℚ → ℚ → ℚ) {r : Region} {p : Point}
    (hl : p.length = r.length) (h : Region.contains r p = true) :
    (Region.subdivide mid r).countP (fun box => Region.contains box p) = 1 := by
  unfold Region.subdivide
  rw [cartProd_countP _ p (by simpa using hl)]
  rw [List.zip_map_left, List.map_map]
  apply List.prod_eq_one
  intro n hn
  simp only [List.mem_map, Function.comp, Prod.map] at hn
  obtain ⟨⟨i, v⟩, hiv, rfl⟩ := hn
  apply Interval.subdivide_one_count
  simp only [Region.contains] at h
  exact List.all_eq_true.mp h (i, v) hiv

theorem subdivide_sub_aux {mid : ℚ → ℚ → ℚ} (hm : MidValid mid) :
    ∀ (r : Region) (b : Region) (p : Point),
      (∀ i ∈ r, i.start < i.stop) →
      List.Forall₂ (fun j i => j ∈ Interval.subdivide mid i) b r →
      Region.contains b p = true → Region.contains r p = true := by
  intro r
  induction r with
  | nil =>
    intro b p _ hf _
    exact Region.contains_nil_left
  | cons i r ih =>
    intro b p hv hf h
    cases hf with
    | cons hx hys =>
      rename_i j b2
      cases p with
      | nil => exact Region.contains_nil_right
      | cons v p2 =>
        rw [Region.contains_cons, Bool.and_eq_true] at h ⊢
        exact ⟨Interval.subdivide_part_sub hm (hv i (List.mem_cons_self i r)) hx h.1,
          ih b2 p2 (fun x hx2 => hv x (List.mem_cons_of_mem i hx2)) hys h.2⟩

/-- Boxes of a subdivision of a non-degenerate region only contain points
of the region (needs the midpoint bounds). -/
theorem Region.subdivide_sub {mid : ℚ → ℚ → ℚ} (hm : MidValid mid)
    {r : Region} (hv : ∀ i ∈ r, i.start < i.stop) {b : Region}
    (hb : b ∈ Region.subdivide mid r) {p : Point}
    (h : Region.contains b p = true) : Region.contains r p = true := by
  unfold Region.subdivide at hb
  have hf := List.forall₂_map_right_iff.mp (mem_cartProd.mp hb)
  exact subdivide_sub_aux hm r b p hv hf h


/-! Definitional unfolding lemmas for the mutually recursive tree
operations (stated per constructor shape of the children field, where they
hold by `rfl`). -/

theorem insertT_some {V : Type} (pt : V → Point) (mid : ℚ → ℚ → ℚ)
    (r : Region) (c : Nat) (ps : List V) (l : List (QTree V)) (v : V) :
    insertT pt mid (.node r c ps (some l)) v =
      if ps.length < c then
        if Region.contains r (pt v) then (.node r c (ps ++ [v]) (some l), none)
        else (.node r c ps (some l), some .outOfBounds)
      else
        (.node r c ps (some (insertL pt mid l v).1), (insertL pt mid l v).2) := rfl

theorem insertT_none {V : Type} (pt : V → Point) (mid : ℚ → ℚ → ℚ)
    (r : Region) (c : Nat) (ps : List V) (v : V) :
    insertT pt mid (.node r c ps none) v =
      if ps.length < c then
        if Region.contains r (pt v) then (.node r c (ps ++ [v]) none, none)
        else (.node r c ps none, some .outOfBounds)
      else
        (.node r c ps (some (insertFresh pt (mkChildren mid r c) v).1),
          (insertFresh pt (mkChildren mid r c) v).2) := rfl

theorem insertL_nil {V : Type} (pt : V → Point) (mid : ℚ → ℚ → ℚ) (v : V) :
    insertL pt mid [] v = ([], some .noSubtree) := rfl

theorem insertL_cons {V : Type} (pt : V → Point) (mid : ℚ → ℚ → ℚ)
    (t : QTree V) (ts : List (QTree V)) (v : V) :
    insertL pt mid (t :: ts) v =
      if Region.contains t.region (pt v) then
        ((insertT pt mid t v).1 :: ts, (insertT pt mid t v).2)
      else
        ((t :: (insertL pt mid ts v).1), (insertL pt mid ts v).2) := rfl

theorem insertFresh_nil {V : Type} (pt : V → Point) (v : V) :
    insertFresh pt [] v = (([] : List (QTree V)), some .noSubtree) := rfl

theorem insertFresh_cons {V : Type} (pt : V → Point)
    (t : QTree V) (ts : List (QTree V)) (v : V) :
    insertFresh pt (t :: ts) v =
      if Region.contains t.region (pt v) then
        (t.push v :: ts, none)
      else
        ((t :: (insertFresh pt ts v).1), (insertFresh pt ts v).2) := rfl

theorem WF_some {V : Type} (pt : V → Point) (mid : ℚ → ℚ → ℚ)
    (r : Region) (c : Nat) (ps : List V) (l : List (QTree V)) :
    WF pt mid (QTree.node r c ps (some l)) =
      (1 ≤ c ∧ ps.length ≤ c ∧
      (∀ v ∈ ps, (pt v).length = r.length ∧ Region.contains r (pt v) = true) ∧
      ps.length = c ∧ l.map QTree.region = Region.subdivide mid r ∧
      (∀ t ∈ l, QTree.cap t = c) ∧ WFL pt mid l) := rfl

theorem WF_none {V : Type} (pt : V → Point) (mid : ℚ → ℚ → ℚ)
    (r : Region) (c : Nat) (ps : List V) :
    WF pt mid (QTree.node r c ps none) =
      (1 ≤ c ∧ ps.length ≤ c ∧
      (∀ v ∈ ps, (pt v).length = r.length ∧ Region.contains r (pt v) = true) ∧
      True) := rfl

theorem WFL_nil {V : Type} (pt : V → Point) (mid : ℚ → ℚ → ℚ) :
    WFL (V := V) pt mid [] = True := rfl

theorem WFL_cons {V : Type} (pt : V → Point) (mid : ℚ → ℚ → ℚ)
    (t : QTree V) (ts : List (QTree V)) :
    WFL pt mid (t :: ts) = (WF pt mid t ∧ WFL pt mid ts) := rfl

theorem queryT_some {V : Type} (pt : V → Point) (qr : Region) (qc : Point → Bool)
    (r : Region) (c : Nat) (ps : List V) (l : List (QTree V)) :
    queryT pt qr qc (.node r c ps (some l)) =
      ((ps.filter fun v => qc (pt v)) ++ queryL pt qr qc l) := rfl

theorem queryT_none {V : Type} (pt : V → Point) (qr : Region) (qc : Point → Bool)
    (r : Region) (c : Nat) (ps : List V) :
    queryT pt qr qc (.node r c ps none) =
      ((ps.filter fun v => qc (pt v)) ++ []) := rfl

theorem queryL_nil {V : Type} (pt : V → Point) (qr : Region) (qc : Point → Bool) :
    queryL (V := V) pt qr qc [] = [] := rfl

theorem queryL_cons {V : Type} (pt : V → Point) (qr : Region) (qc : Point → Bool)
    (t : QTree V) (ts : List (QTree V)) :
    queryL pt qr qc (t :: ts) =
      ((if Region.intersects t.region qr then queryT pt qr qc t else []) ++
        queryL pt qr qc ts) := rfl

theorem allItems_some {V : Type} (r : Region) (c : Nat) (ps : List V)
    (l : List (QTree V)) :
    allItems (QTree.node r c ps (some l)) = ps ++ allItemsL l := rfl

theorem allItems_none {V : Type} (r : Region) (c : Nat) (ps : List V) :
    allItems (QTree.node (V := V) r c ps none) = ps := rfl

theorem allItemsL_nil {V : Type} : allItemsL (V := V) [] = [] := rfl

theorem allItemsL_cons {V : Type} (t : QTree V) (ts : List (QTree V)) :
    allItemsL (t :: ts) = allItems t ++ allItemsL ts := rfl

/-! Structural lemmas about the tree operations. -/

theorem QTree.push_region {V : Type} (t : QTree V) (v : V) :
    (t.push v).region = t.region := by
  cases t; rfl

theorem QTree.push_cap {V : Type} (t : QTree V) (v : V) :
    (t.push v).cap = t.cap := by
  cases t; rfl

theorem allItems_push {V : Type} (t : QTree V) (v : V) :
    List.Perm (allItems (t.push v)) (v :: allItems t) := by
  cases t with
  | node r c ps subs =>
    cases subs with
    | none =>
      simp only [QTree.push, allItems_none]
      exact List.perm_append_singleton v ps
    | some l =>
      simp only [QTree.push, allItems_some, List.append_assoc,
        List.singleton_append]
      exact List.perm_middle

theorem mem_allItemsL {V : Type} {l : List (QTree V)} {v : V} :
    v ∈ allItemsL l ↔ ∃ t ∈ l, v ∈ allItems t := by
  induction l with
  | nil => simp [allItemsL_nil]
  | cons t ts ih => simp [allItemsL_cons, ih]

theorem mkChildren_map_region {V : Type} (mid : ℚ → ℚ → ℚ) (r : Region) (c : Nat) :
    (mkChildren (V := V) mid r c).map QTree.region = Region.subdivide mid r := by
  simp only [mkChildren, List.map_map]
  have h : (QTree.region ∘ fun r2 => QTree.new (V := V) r2 c) = id := by
    funext r2; rfl
  rw [h, List.map_id]

theorem mkChildren_mem {V : Type} {mid : ℚ → ℚ → ℚ} {r : Region} {c : Nat}
    {t : QTree V} (h : t ∈ mkChildren (V := V) mid r c) :
    t.cap = c ∧ t.pts = [] ∧ t.subs = none ∧ t.region ∈ Region.subdivide mid r := by
  simp only [mkChildren, List.mem_map] at h
  obtain ⟨r2, hr2, rfl⟩ := h
  exact ⟨rfl, rfl, rfl, hr2⟩

theorem allItemsL_mkChildren {V : Type} (mid : ℚ → ℚ → ℚ) (r : Region) (c : Nat) :
    allItemsL (mkChildren (V := V) mid r c) = [] := by
  simp only [mkChildren, QTree.new]
  induction Region.subdivide mid r with
  | nil => rfl
  | cons x xs ih => simpa [allItemsL_cons, allItems_none] using ih

theorem insertT_region_cap {V : Type} (pt : V → Point) (mid : ℚ → ℚ → ℚ)
    (t : QTree V) (v : V) :
    ((insertT pt mid t v).1).region = t.region ∧
      ((insertT pt mid t v).1).cap = t.cap := by
  cases t with
  | node r c ps subs =>
    cases subs with
    | some l =>
      rw [insertT_some]
      by_cases h1 : ps.length < c
      · rw [if_pos h1]
        by_cases hc : Region.contains r (pt v) = true
        · rw [if_pos hc]; exact ⟨rfl, rfl⟩
        · rw [if_neg hc]; exact ⟨rfl, rfl⟩
      · rw [if_neg h1]; exact ⟨rfl, rfl⟩
    | none =>
      rw [insertT_none]
      by_cases h1 : ps.length < c
      · rw [if_pos h1]
        by_cases hc : Region.contains r (pt v) = true
        · rw [if_pos hc]; exact ⟨rfl, rfl⟩
        · rw [if_neg hc]; exact ⟨rfl, rfl⟩
      · rw [if_neg h1]; exact ⟨rfl, rfl⟩

/-- On an error, `insertFresh` leaves the children untouched. -/
theorem insertFresh_err_eq {V : Type} (pt : V → Point) :
    ∀ (l : List (QTree V)) (v : V), (insertFresh pt l v).2 ≠ none →
      (insertFresh pt l v).1 = l := by
  intro l
  induction l with
  | nil => intro v _; rfl
  | cons t ts ih =>
    intro v h
    by_cases hc : Region.contains t.region (pt v) = true
    · rw [insertFresh_cons, if_pos hc] at h
      simp at h
    · rw [insertFresh_cons, if_neg hc] at h ⊢
      simp only at h ⊢
      rw [ih v h]

theorem insertFresh_ok_items {V : Type} (pt : V → Point) :
    ∀ (l : List (QTree V)) (v : V), (insertFresh pt l v).2 = none →
      List.Perm (allItemsL (insertFresh pt l v).1) (v :: allItemsL l) := by
  intro l
  induction l with
  | nil => intro v h; simp [insertFresh_nil] at h
  | cons t ts ih =>
    intro v h
    by_cases hc : Region.contains t.region (pt v) = true
    · rw [insertFresh_cons, if_pos hc]
      simp only [allItemsL_cons]
      exact (allItems_push t v).append_right _
    · rw [insertFresh_cons, if_neg hc] at h ⊢
      simp only at h
      simp only [allItemsL_cons]
      exact ((ih v h).append_left _).trans List.perm_middle

theorem insertFresh_map_region {V : Type} (pt : V → Point) :
    ∀ (l : List (QTree V)) (v : V),
      ((insertFresh pt l v).1).map QTree.region = l.map QTree.region := by
  intro l
  induction l with
  | nil => intro v; rfl
  | cons t ts ih =>
    intro v
    by_cases hc : Region.contains t.region (pt v) = true
    · rw [insertFresh_cons, if_pos hc]
      simp [QTree.push_region]
    · rw [insertFresh_cons, if_neg hc]
      simp [ih]

theorem insertFresh_map_cap {V : Type} (pt : V → Point) :
    ∀ (l : List (QTree V)) (v : V),
      ((insertFresh pt l v).1).map QTree.cap = l.map QTree.cap := by
  intro l
  induction l with
  | nil => intro v; rfl
  | cons t ts ih =>
    intro v
    by_cases hc : Region.contains t.region (pt v) = true
    · rw [insertFresh_cons, if_pos hc]
      simp [QTree.push_cap]
    · rw [insertFresh_cons, if_neg hc]
      simp [ih]

/-- `insertFresh` succeeds as soon as some child region contains the point. -/
theorem insertFresh_ok {V : Type} (pt : V → Point) :
    ∀ (l : List (QTree V)) (v : V),
      (∃ t ∈ l, Region.contains t.region (pt v) = true) →
      (insertFresh pt l v).2 = none := by
  intro l
  induction l with
  | nil => rintro v ⟨t, ht, _⟩; cases ht
  | cons t ts ih =>
    rintro v ⟨u, hu, hcont⟩
    by_cases hc : Region.contains t.region (pt v) = true
    · rw [insertFresh_cons, if_pos hc]
    · rw [insertFresh_cons, if_neg hc]
      simp only
      rcases List.mem_cons.mp hu with rfl | hu
      · exact absurd hcont hc
      · exact ih v ⟨u, hu, hcont⟩

/-- A childless node with an empty bucket and positive capacity satisfies
the invariant. -/
theorem WF_of_fresh {V : Type} (pt : V → Point) (mid : ℚ → ℚ → ℚ)
    {t : QTree V} (hp : t.pts = []) (hs : t.subs = none) (hc : 1 ≤ t.cap) :
    WF pt mid t := by
  cases t with
  | node r c ps subs =>
    simp only [QTree.pts] at hp
    simp only [QTree.subs] at hs
    simp only [QTree.cap] at hc
    subst hp hs
    rw [WF_none]
    exact ⟨hc, Nat.zero_le c, by simp, trivial⟩

theorem WFL_of_fresh {V : Type} (pt : V → Point) (mid : ℚ → ℚ → ℚ) :
    ∀ l : List (QTree V),
      (∀ t ∈ l, t.pts = [] ∧ t.subs = none ∧ 1 ≤ t.cap) → WFL pt mid l := by
  intro l
  induction l with
  | nil => intro _; exact trivial
  | cons t ts ih =>
    intro hl
    obtain ⟨hp, hs, hc⟩ := hl t (List.mem_cons_self t ts)
    rw [WFL_cons]
    exact ⟨WF_of_fresh pt mid hp hs hc,
      ih fun u hu => hl u (List.mem_cons_of_mem t hu)⟩

/-- `insertFresh` preserves the invariant of a list of fresh leaves. -/
theorem insertFresh_WFL {V : Type} (pt : V → Point) (mid : ℚ → ℚ → ℚ) :
    ∀ (l : List (QTree V)) (v : V),
      (∀ t ∈ l, t.pts = [] ∧ t.subs = none ∧ 1 ≤ t.cap ∧
        (pt v).length = t.region.length) →
      WFL pt mid (insertFresh pt l v).1 := by
  intro l
  induction l with
  | nil => intro v _; exact trivial
  | cons t ts ih =>
    intro v hl
    obtain ⟨hp, hs, hc1, hlen⟩ := hl t (List.mem_cons_self t ts)
    have hts : ∀ u ∈ ts, u.pts = [] ∧ u.subs = none ∧ 1 ≤ u.cap ∧
        (pt v).length = u.region.length :=
      fun u hu => hl u (List.mem_cons_of_mem t hu)
    by_cases hcont : Region.contains t.region (pt v) = true
    · rw [insertFresh_cons, if_pos hcont]
      simp only
      rw [WFL_cons]
      refine ⟨?_, WFL_of_fresh pt mid ts fun u hu =>
        ⟨(hts u hu).1, (hts u hu).2.1, (hts u hu).2.2.1⟩⟩
      cases t with
      | node r c ps subs =>
        simp only [QTree.pts] at hp
        simp only [QTree.subs] at hs
        simp only [QTree.cap] at hc1
        simp only [QTree.region] at hlen hcont
        subst hp hs
        simp only [QTree.push]
        rw [WF_none]
        refine ⟨hc1, by simpa using hc1, ?_, trivial⟩
        intro w hw
        simp only [List.nil_append, List.mem_singleton] at hw
        subst hw
        exact ⟨hlen, hcont⟩
    · rw [insertFresh_cons, if_neg hcont]
      simp only
      rw [WFL_cons]
      exact ⟨WF_of_fresh pt mid hp hs hc1, ih v hts⟩

theorem WFL_mem {V : Type} {pt : V → Point} {mid : ℚ → ℚ → ℚ}
    {l : List (QTree V)} (h : WFL pt mid l) : ∀ t ∈ l, WF pt mid t := by
  induction l with
  | nil => simp
  | cons t ts ih =>
    rw [WFL_cons] at h
    intro u hu
    rcases List.mem_cons.mp hu with rfl | hu
    · exact h.1
    · exact ih h.2 u hu

theorem values_of_map_eq {α β : Type} {f : α → β} {c : β} {l l2 : List α}
    (hmap : l2.map f = l.map f) (h : ∀ x ∈ l, f x = c) : ∀ x ∈ l2, f x = c := by
  intro x hx
  have hfx : f x ∈ l2.map f := List.mem_map_of_mem f hx
  rw [hmap] at hfx
  obtain ⟨y, hy, hfy⟩ := List.mem_map.mp hfx
  rw [← hfy]
  exact h y hy

theorem insertL_map_region {V : Type} (pt : V → Point) (mid : ℚ → ℚ → ℚ) :
    ∀ (l : List (QTree V)) (v : V),
      ((insertL pt mid l v).1).map QTree.region = l.map QTree.region := by
  intro l
  induction l with
  | nil => intro v; rfl
  | cons t ts ih =>
    intro v
    by_cases hc : Region.contains t.region (pt v) = true
    · rw [insertL_cons, if_pos hc]
      simp [(insertT_region_cap pt mid t v).1]
    · rw [insertL_cons, if_neg hc]
      simp [ih]

theorem insertL_map_cap {V : Type} (pt : V → Point) (mid : ℚ → ℚ → ℚ) :
    ∀ (l : List (QTree V)) (v : V),
      ((insertL pt mid l v).1).map QTree.cap = l.map QTree.cap := by
  intro l
  induction l with
  | nil => intro v; rfl
  | cons t ts ih =>
    intro v
    by_cases hc : Region.contains t.region (pt v) = true
    · rw [insertL_cons, if_pos hc]
      simp [(insertT_region_cap pt mid t v).2]
    · rw [insertL_cons, if_neg hc]
      simp [ih]

theorem insertL_WFL {V : Type} (pt : V → Point) (mid : ℚ → ℚ → ℚ) :
    ∀ (l : List (QTree V)) (v : V),
      (∀ t ∈ l, WF pt mid t → (pt v).length = t.region.length →
        WF pt mid (insertT pt mid t v).1) →
      WFL pt mid l →
      (∀ t ∈ l, (pt v).length = t.region.length) →
      WFL pt mid (insertL pt mid l v).1 := by
  intro l
  induction l with
  | nil => intro v _ _ _; exact trivial
  | cons t ts ih =>
    intro v hins hWFL hlen
    rw [WFL_cons] at hWFL
    by_cases hc : Region.contains t.region (pt v) = true
    · rw [insertL_cons, if_pos hc]
      rw [WFL_cons]
      exact ⟨hins t (List.mem_cons_self t ts) hWFL.1
          (hlen t (List.mem_cons_self t ts)), hWFL.2⟩
    · rw [insertL_cons, if_neg hc]
      simp only
      rw [WFL_cons]
      exact ⟨hWFL.1, ih v (fun u hu => hins u (List.mem_cons_of_mem t hu))
        hWFL.2 (fun u hu => hlen u (List.mem_cons_of_mem t hu))⟩

theorem insertL_items {V : Type} (pt : V → Point) (mid : ℚ → ℚ → ℚ) :
    ∀ (l : List (QTree V)) (v : V),
      (∀ t ∈ l,
        ((insertT pt mid t v).2 = none →
          List.Perm (allItems (insertT pt mid t v).1) (v :: allItems t)) ∧
        ((insertT pt mid t v).2 ≠ none →
          allItems (insertT pt mid t v).1 = allItems t)) →
      (((insertL pt mid l v).2 = none →
          List.Perm (allItemsL (insertL pt mid l v).1) (v :: allItemsL l)) ∧
        ((insertL pt mid l v).2 ≠ none →
          allItemsL (insertL pt mid l v).1 = allItemsL l)) := by
  intro l
  induction l with
  | nil =>
    intro v _
    refine ⟨?_, ?_⟩
    · intro h
      simp [insertL_nil] at h
    · intro _
      rfl
  | cons t ts ih =>
    intro v hmem
    have hthead := hmem t (List.mem_cons_self t ts)
    have htail := ih v fun u hu => hmem u (List.mem_cons_of_mem t hu)
    by_cases hc : Region.contains t.region (pt v) = true
    · rw [insertL_cons, if_pos hc]
      refine ⟨?_, ?_⟩
      · intro h
        simp only at h ⊢
        simp only [allItemsL_cons]
        exact ((hthead.1 h).append_right _)
      · intro h
        simp only at h ⊢
        simp only [allItemsL_cons]
        rw [hthead.2 h]
    · rw [insertL_cons, if_neg hc]
      refine ⟨?_, ?_⟩
      · intro h
        simp only at h ⊢
        simp only [allItemsL_cons]
        exact ((htail.1 h).append_left _).trans List.perm_middle
      · intro h
        simp only at h ⊢
        simp only [allItemsL_cons]
        rw [htail.2 h]

theorem insertL_ok {V : Type} (pt : V → Point) (mid : ℚ → ℚ → ℚ) :
    ∀ (l : List (QTree V)) (v : V),
      (∀ t ∈ l, Region.contains t.region (pt v) = true →
        (insertT pt mid t v).2 = none) →
      (∃ t ∈ l, Region.contains t.region (pt v) = true) →
      (insertL pt mid l v).2 = none := by
  intro l
  induction l with
  | nil => rintro v _ ⟨t, ht, _⟩; cases ht
  | cons t ts ih =>
    rintro v hins ⟨u, hu, hcont⟩
    by_cases hc : Region.contains t.region (pt v) = true
    · rw [insertL_cons, if_pos hc]
      exact hins t (List.mem_cons_self t ts) hc
    · rw [insertL_cons, if_neg hc]
      simp only
      rcases List.mem_cons.mp hu with rfl | hu
      · exact absurd hcont hc
      · exact ih v (fun w hw => hins w (List.mem_cons_of_mem t hw)) ⟨u, hu, hcont⟩

/-- `insert` preserves the structural invariant, for successful and failing
calls alike (a failing call may still create children, but they are fresh
well-formed leaves). -/
theorem insertT_pres {V : Type} (pt : V → Point) (mid : ℚ → ℚ → ℚ) :
    ∀ t : QTree V, WF pt mid t → ∀ v : V, (pt v).length = t.region.length →
      WF pt mid (insertT pt mid t v).1 := by
  apply QTree.ind
  intro r c ps subs ihsub hWF v hlen
  simp only [QTree.region] at hlen
  cases subs with
  | some l =>
    rw [WF_some] at hWF
    obtain ⟨hc1, hlc, hitems, hfull, hmap, hcaps, hWFL⟩ := hWF
    rw [insertT_some]
    by_cases h1 : ps.length < c
    · exact absurd h1 (by omega)
    · rw [if_neg h1]
      show WF pt mid (QTree.node r c ps (some (insertL pt mid l v).1))
      rw [WF_some]
      refine ⟨hc1, hlc, hitems, hfull, ?_, ?_, ?_⟩
      · rw [insertL_map_region, hmap]
      · exact values_of_map_eq (insertL_map_cap pt mid l v) hcaps
      · refine insertL_WFL pt mid l v ?_ hWFL ?_
        · intro u hu hWFu hlenu
          exact ihsub l rfl u hu hWFu v hlenu
        · intro u hu
          have hreg : u.region ∈ Region.subdivide mid r := by
            rw [← hmap]
            exact List.mem_map_of_mem _ hu
          rw [Region.subdivide_mem_length hreg]
          exact hlen
  | none =>
    rw [WF_none] at hWF
    obtain ⟨hc1, hlc, hitems, -⟩ := hWF
    rw [insertT_none]
    by_cases h1 : ps.length < c
    · rw [if_pos h1]
      by_cases hc : Region.contains r (pt v) = true
      · rw [if_pos hc]
        show WF pt mid (QTree.node r c (ps ++ [v]) none)
        rw [WF_none]
        refine ⟨hc1, by simp; omega, ?_, trivial⟩
        intro w hw
        rcases List.mem_append.mp hw with hw | hw
        · exact hitems w hw
        · rw [List.mem_singleton] at hw
          subst hw
          exact ⟨hlen, hc⟩
      · rw [if_neg hc]
        show WF pt mid (QTree.node r c ps none)
        rw [WF_none]
        exact ⟨hc1, hlc, hitems, trivial⟩
    · rw [if_neg h1]
      show WF pt mid
        (QTree.node r c ps (some (insertFresh pt (mkChildren mid r c) v).1))
      rw [WF_some]
      refine ⟨hc1, hlc, hitems, by omega, ?_, ?_, ?_⟩
      · rw [insertFresh_map_region, mkChildren_map_region]
      · refine values_of_map_eq (insertFresh_map_cap pt _ v) ?_
        intro u hu
        exact (mkChildren_mem hu).1
      · refine insertFresh_WFL pt mid _ v ?_
        intro u hu
        obtain ⟨hcap, hpts, hsubs, hreg⟩ := mkChildren_mem hu
        refine ⟨hpts, hsubs, by rw [hcap]; exact hc1, ?_⟩
        rw [Region.subdivide_mem_length hreg]
        exact hlen

/-- The items after an `insert`: on success exactly the old items plus the
new one; on an error exactly the old items (even when fresh children were
created, their buckets are empty). -/
theorem insertT_items {V : Type} (pt : V → Point) (mid : ℚ → ℚ → ℚ) :
    ∀ (t : QTree V) (v : V),
      ((insertT pt mid t v).2 = none →
        List.Perm (allItems (insertT pt mid t v).1) (v :: allItems t)) ∧
      ((insertT pt mid t v).2 ≠ none →
        allItems (insertT pt mid t v).1 = allItems t) := by
  apply QTree.ind
  intro r c ps subs ihsub v
  cases subs with
  | some l =>
    rw [insertT_some]
    by_cases h1 : ps.length < c
    · rw [if_pos h1]
      by_cases hc : Region.contains r (pt v) = true
      · rw [if_pos hc]
        refine ⟨?_, ?_⟩
        · intro _
          show List.Perm (allItems (QTree.node r c (ps ++ [v]) (some l)))
            (v :: allItems (QTree.node r c ps (some l)))
          rw [allItems_some, allItems_some, List.append_assoc,
            List.singleton_append]
          exact List.perm_middle
        · intro h
          exact absurd rfl h
      · rw [if_neg hc]
        refine ⟨?_, ?_⟩
        · intro h
          simp at h
        · intro _
          rfl
    · rw [if_neg h1]
      have hresL := insertL_items pt mid l v fun u hu => ihsub l rfl u hu v
      refine ⟨?_, ?_⟩
      · intro h
        simp only at h ⊢
        show List.Perm (allItems (QTree.node r c ps (some (insertL pt mid l v).1)))
          (v :: allItems (QTree.node r c ps (some l)))
        rw [allItems_some, allItems_some]
        exact ((hresL.1 h).append_left ps).trans List.perm_middle
      · intro h
        simp only at h ⊢
        show allItems (QTree.node r c ps (some (insertL pt mid l v).1)) =
          allItems (QTree.node r c ps (some l))
        rw [allItems_some, allItems_some, hresL.2 h]
  | none =>
    rw [insertT_none]
    by_cases h1 : ps.length < c
    · rw [if_pos h1]
      by_cases hc : Region.contains r (pt v) = true
      · rw [if_pos hc]
        refine ⟨?_, ?_⟩
        · intro _
          show List.Perm (allItems (QTree.node r c (ps ++ [v]) none))
            (v :: allItems (QTree.node r c ps none))
          rw [allItems_none, allItems_none]
          exact List.perm_append_singleton v ps
        · intro h
          exact absurd rfl h
      · rw [if_neg hc]
        refine ⟨?_, ?_⟩
        · intro h
          simp at h
        · intro _
          rfl
    · rw [if_neg h1]
      refine ⟨?_, ?_⟩
      · intro h
        simp only at h ⊢
        show List.Perm
          (allItems (QTree.node r c ps
            (some (insertFresh pt (mkChildren mid r c) v).1)))
          (v :: allItems (QTree.node r c ps none))
        rw [allItems_some, allItems_none]
        have hfr := insertFresh_ok_items pt (mkChildren mid r c) v h
        rw [allItemsL_mkChildren] at hfr
        exact ((hfr.append_left ps).trans (List.perm_append_singleton v ps))
      · intro h
        simp only at h ⊢
        show allItems (QTree.node r c ps
            (some (insertFresh pt (mkChildren mid r c) v).1)) =
          allItems (QTree.node r c ps none)
        rw [allItems_some, allItems_none,
          insertFresh_err_eq pt (mkChildren mid r c) v h, allItemsL_mkChildren,
          List.append_nil]

/-- With a valid midpoint function, inserting an in-bounds item of the right
dimension into a well-formed tree always succeeds. -/
theorem insertT_ok {V : Type} (pt : V → Point) (mid : ℚ → ℚ → ℚ) :
    ∀ t : QTree V, WF pt mid t → ∀ v : V,
      Region.contains t.region (pt v) = true →
      (pt v).length = t.region.length →
      (insertT pt mid t v).2 = none := by
  apply QTree.ind
  intro r c ps subs ihsub hWF v hcont hlen
  simp only [QTree.region] at hcont hlen
  have hcov : ∃ b ∈ Region.subdivide mid r, Region.contains b (pt v) = true := by
    apply List.countP_pos_iff.mp
    rw [Region.subdivide_countP mid hlen hcont]
    omega
  cases subs with
  | some l =>
    rw [WF_some] at hWF
    obtain ⟨hc1, hlc, hitems, hfull, hmap, hcaps, hWFL⟩ := hWF
    rw [insertT_some]
    by_cases h1 : ps.length < c
    · rw [if_pos h1, if_pos hcont]
    · rw [if_neg h1]
      show (insertL pt mid l v).2 = none
      obtain ⟨b, hb, hbc⟩ := hcov
      rw [← hmap] at hb
      obtain ⟨u, hu, hureg⟩ := List.mem_map.mp hb
      refine insertL_ok pt mid l v ?_ ⟨u, hu, by rw [hureg]; exact hbc⟩
      intro w hw hwc
      have hreg : w.region ∈ Region.subdivide mid r := by
        rw [← hmap]
        exact List.mem_map_of_mem _ hw
      exact ihsub l rfl w hw (WFL_mem hWFL w hw) v hwc
        (by rw [Region.subdivide_mem_length hreg]; exact hlen)
  | none =>
    rw [insertT_none]
    by_cases h1 : ps.length < c
    · rw [if_pos h1, if_pos hcont]
    · rw [if_neg h1]
      show (insertFresh pt (mkChildren mid r c) v).2 = none
      obtain ⟨b, hb, hbc⟩ := hcov
      rw [← mkChildren_map_region (V := V) mid r c] at hb
      obtain ⟨u, hu, hureg⟩ := List.mem_map.mp hb
      exact insertFresh_ok pt _ v ⟨u, hu, by rw [hureg]; exact hbc⟩

/-- Every stored item is dimensioned like and contained in the region of
the subtree it sits in (needs the midpoint bounds to lift containment from
child regions to the parent). -/
theorem itemsIn {V : Type} (pt : V → Point) (mid : ℚ → ℚ → ℚ)
    (hm : MidValid mid) :
    ∀ t : QTree V, WF pt mid t → ∀ v ∈ allItems t,
      (pt v).length = t.region.length ∧
        Region.contains t.region (pt v) = true := by
  apply QTree.ind
  intro r c ps subs ihsub hWF v hv
  simp only [QTree.region]
  cases subs with
  | some l =>
    rw [WF_some] at hWF
    obtain ⟨hc1, hlc, hitems, hfull, hmap, hcaps, hWFL⟩ := hWF
    rw [allItems_some] at hv
    rcases List.mem_append.mp hv with hv | hv
    · exact hitems v hv
    · obtain ⟨u, hu, hvu⟩ := mem_allItemsL.mp hv
      have hreg : u.region ∈ Region.subdivide mid r := by
        rw [← hmap]
        exact List.mem_map_of_mem _ hu
      obtain ⟨hul, huc⟩ := ihsub l rfl u hu (WFL_mem hWFL u hu) v hvu
      have hvalid : ∀ i ∈ r, i.start < i.stop := by
        have hps : 0 < ps.length := by omega
        obtain ⟨w, hw⟩ := List.exists_mem_of_length_pos hps
        exact validR_of_contains (hitems w hw).1 (hitems w hw).2
      refine ⟨?_, Region.subdivide_sub hm hvalid hreg huc⟩
      rw [hul, Region.subdivide_mem_length hreg]
  | none =>
    rw [WF_none] at hWF
    rw [allItems_none] at hv
    exact hWF.2.2.1 v hv

theorem queryL_perm {V : Type} (pt : V → Point) (qr : Region) (qc : Point → Bool) :
    ∀ l : List (QTree V),
      (∀ t ∈ l, Region.intersects t.region qr = true →
        List.Perm (queryT pt qr qc t) ((allItems t).filter fun v => qc (pt v))) →
      (∀ t ∈ l, Region.intersects t.region qr = false →
        (allItems t).filter (fun v => qc (pt v)) = []) →
      List.Perm (queryL pt qr qc l) ((allItemsL l).filter fun v => qc (pt v)) := by
  intro l
  induction l with
  | nil =>
    intro _ _
    rw [queryL_nil, allItemsL_nil, List.filter_nil]
  | cons t ts ih =>
    intro hkeep hdrop
    rw [queryL_cons, allItemsL_cons, List.filter_append]
    have htail := ih (fun u hu => hkeep u (List.mem_cons_of_mem t hu))
      (fun u hu => hdrop u (List.mem_cons_of_mem t hu))
    cases hint : Region.intersects t.region qr with
    | true =>
      rw [if_pos rfl]
      exact (hkeep t (List.mem_cons_self t ts) hint).append htail
    | false =>
      rw [if_neg (by simp)]
      rw [hdrop t (List.mem_cons_self t ts) hint, List.nil_append,
        List.nil_append]
      exact htail

/-- The query returns exactly the stored items satisfying the fine
predicate, as a permutation, for any query whose fine predicate only holds
inside its bounding region: pruning never discards a matching item. -/
theorem queryT_perm {V : Type} (pt : V → Point) (mid : ℚ → ℚ → ℚ)
    (hm : MidValid mid) (qr : Region) (qc : Point → Bool)
    (hq : ∀ p : Point, p.length = qr.length → qc p = true →
      Region.contains qr p = true) :
    ∀ t : QTree V, WF pt mid t → qr.length = t.region.length →
      List.Perm (queryT pt qr qc t) ((allItems t).filter fun v => qc (pt v)) := by
  apply QTree.ind
  intro r c ps subs ihsub hWF hqlen
  simp only [QTree.region] at hqlen
  cases subs with
  | some l =>
    rw [WF_some] at hWF
    obtain ⟨hc1, hlc, hitems, hfull, hmap, hcaps, hWFL⟩ := hWF
    rw [queryT_some, allItems_some, List.filter_append]
    refine List.Perm.append (List.Perm.refl _) ?_
    refine queryL_perm pt qr qc l ?_ ?_
    · intro u hu hint
      have hreg : u.region ∈ Region.subdivide mid r := by
        rw [← hmap]
        exact List.mem_map_of_mem _ hu
      exact ihsub l rfl u hu (WFL_mem hWFL u hu)
        (by rw [Region.subdivide_mem_length hreg]; exact hqlen)
    · intro u hu hint
      rw [List.filter_eq_nil_iff]
      intro w hw
      intro hqc
      have hreg : u.region ∈ Region.subdivide mid r := by
        rw [← hmap]
        exact List.mem_map_of_mem _ hu
      have hulen : u.region.length = r.length := Region.subdivide_mem_length hreg
      obtain ⟨hwlen, hwc⟩ := itemsIn pt mid hm u (WFL_mem hWFL u hu) w hw
      have hqrw : Region.contains qr (pt w) = true := by
        refine hq (pt w) ?_ hqc
        rw [hwlen, hulen, hqlen]
      have : Region.intersects u.region qr = true := by
        refine Region.intersects_of_mem ?_ ?_ hwc hqrw
        · rw [hulen, hqlen]
        · rw [hwlen]
      rw [hint] at this
      cases this
  | none =>
    rw [queryT_none, allItems_none, List.append_nil]

theorem insertMany_nil {V : Type} (pt : V → Point) (mid : ℚ → ℚ → ℚ)
    (t : QTree V) : insertMany pt mid t [] = (t, none) := rfl

theorem insertMany_cons {V : Type} (pt : V → Point) (mid : ℚ → ℚ → ℚ)
    (t : QTree V) (v : V) (vs : List V) :
    insertMany pt mid t (v :: vs) =
      match insertT pt mid t v with
      | (t2, none) => insertMany pt mid t2 vs
      | (t2, some e) => (t2, some e) := rfl

theorem insertAll_nil {V : Type} (pt : V → Point) (mid : ℚ → ℚ → ℚ)
    (t : QTree V) : insertAll pt mid t [] = t := rfl

theorem insertAll_cons {V : Type} (pt : V → Point) (mid : ℚ → ℚ → ℚ)
    (t : QTree V) (v : V) (vs : List V) :
    insertAll pt mid t (v :: vs) =
      insertAll pt mid (insertT pt mid t v).1 vs := rfl

/-- Inserting a list of in-bounds, correctly dimensioned items into a
well-formed tree: every insert succeeds, the invariant and the root region
are preserved, and the stored items are exactly the old ones plus the
inserted ones (as a multiset). -/
theorem insertMany_spec {V : Type} (pt : V → Point) (mid : ℚ → ℚ → ℚ) :
    ∀ (vs : List V) (t : QTree V), WF pt mid t →
      (∀ v ∈ vs, Region.contains t.region (pt v) = true ∧
        (pt v).length = t.region.length) →
      (insertMany pt mid t vs).2 = none ∧
      WF pt mid (insertMany pt mid t vs).1 ∧
      ((insertMany pt mid t vs).1).region = t.region ∧
      List.Perm (allItems (insertMany pt mid t vs).1) (allItems t ++ vs) := by
  intro vs
  induction vs with
  | nil =>
    intro t hWF _
    rw [insertMany_nil]
    exact ⟨rfl, hWF, rfl, by rw [List.append_nil]⟩
  | cons v vs ih =>
    intro t hWF hvs
    obtain ⟨hcont, hlen⟩ := hvs v (List.mem_cons_self v vs)
    have hok : (insertT pt mid t v).2 = none :=
      insertT_ok pt mid t hWF v hcont hlen
    have heq : insertT pt mid t v = ((insertT pt mid t v).1, none) := by
      rw [← hok]
    rw [insertMany_cons, heq]
    simp only
    have hWF2 : WF pt mid (insertT pt mid t v).1 := insertT_pres pt mid t hWF v hlen
    have hreg2 : ((insertT pt mid t v).1).region = t.region :=
      (insertT_region_cap pt mid t v).1
    have hstep : List.Perm (allItems (insertT pt mid t v).1) (v :: allItems t) :=
      (insertT_items pt mid t v).1 hok
    obtain ⟨he, hw, hr, hp⟩ := ih (insertT pt mid t v).1 hWF2 (by
      intro w hw
      rw [hreg2]
      exact hvs w (List.mem_cons_of_mem v hw))
    refine ⟨he, hw, hr.trans hreg2, ?_⟩
    exact hp.trans ((hstep.append_right vs).trans List.perm_middle.symm)

theorem insertAll_spec {V : Type} (pt : V → Point) (mid : ℚ → ℚ → ℚ) :
    ∀ (vs : List V) (t : QTree V), WF pt mid t →
      (∀ v ∈ vs, (pt v).length = t.region.length) →
      WF pt mid (insertAll pt mid t vs) ∧
        (insertAll pt mid t vs).region = t.region := by
  intro vs
  induction vs with
  | nil =>
    intro t hWF _
    rw [insertAll_nil]
    exact ⟨hWF, rfl⟩
  | cons v vs ih =>
    intro t hWF hvs
    rw [insertAll_cons]
    have hlen := hvs v (List.mem_cons_self v vs)
    have hWF2 : WF pt mid (insertT pt mid t v).1 := insertT_pres pt mid t hWF v hlen
    have hreg2 : ((insertT pt mid t v).1).region = t.region :=
      (insertT_region_cap pt mid t v).1
    obtain ⟨h1, h2⟩ := ih (insertT pt mid t v).1 hWF2 (by
      intro w hw
      rw [hreg2]
      exact hvs w (List.mem_cons_of_mem v hw))
    exact ⟨h1, h2.trans hreg2⟩

/-! The claims. -/

/-- C4: for every constructed Interval (constructed means `try_new`
succeeded, so `start < end` with finite bounds) and every midpoint within
the bounds `f64::midpoint` guarantees, `subdivide()` returns exactly one
interval, equal to the original, if and only if the midpoint equals
`start` (direct equality); otherwise it returns exactly the two intervals
`[start, mid)` and `[mid, end)` sharing the midpoint, whose union of
half-open member sets is the original interval and which do not overlap. -/
theorem c4_subdivide_cases (mid : ℚ → ℚ → ℚ) (hm : MidValid mid)
    (i : Interval) (hi : i.start < i.stop) :
    (Interval.subdivide mid i = [i] ↔ mid i.start i.stop = i.start) ∧
    (mid i.start i.stop ≠ i.start →
      Interval.subdivide mid i =
        [⟨i.start, mid i.start i.stop⟩, ⟨mid i.start i.stop, i.stop⟩] ∧
      (∀ v : ℚ, (Interval.contains ⟨i.start, mid i.start i.stop⟩ v = true ∨
          Interval.contains ⟨mid i.start i.stop, i.stop⟩ v = true) ↔
        Interval.contains i v = true) ∧
      (∀ v : ℚ, ¬(Interval.contains ⟨i.start, mid i.start i.stop⟩ v = true ∧
          Interval.contains ⟨mid i.start i.stop, i.stop⟩ v = true))) := by
  obtain ⟨hm1, hm2⟩ := hm i.start i.stop hi
  constructor
  · by_cases hc : i.start = mid i.start i.stop
    · simp only [Interval.subdivide, if_pos hc]
      simp [hc.symm]
    · simp only [Interval.subdivide, if_neg hc]
      constructor
      · intro h
        have hlen2 := congrArg List.length h
        simp at hlen2
      · intro h
        exact absurd h.symm hc
  · intro hne
    refine ⟨by simp only [Interval.subdivide]; rw [if_neg (Ne.symm hne)], ?_, ?_⟩
    · intro v
      simp only [Interval.contains_iff]
      constructor
      · rintro (⟨ha, hb⟩ | ⟨ha, hb⟩)
        · exact ⟨ha, lt_of_lt_of_le hb hm2⟩
        · exact ⟨le_trans hm1 ha, hb⟩
      · rintro ⟨ha, hb⟩
        rcases lt_or_le v (mid i.start i.stop) with hv | hv
        · exact Or.inl ⟨ha, hv⟩
        · exact Or.inr ⟨hv, hb⟩
    · intro v
      rintro ⟨h1, h2⟩
      rw [Interval.contains_iff] at h1 h2
      exact absurd h2.1 (not_le.mpr h1.2)

/-- Witness for C4 at the interval `[1, 5)` and the exact midpoint. -/
theorem c4_subdivide_cases_witness :
    MidValid ratMid ∧ (1 : ℚ) < 5 ∧
    ((Interval.subdivide ratMid ⟨1, 5⟩ = [⟨1, 5⟩] ↔ ratMid 1 5 = 1) ∧
    (ratMid 1 5 ≠ 1 →
      Interval.subdivide ratMid ⟨1, 5⟩ = [⟨1, ratMid 1 5⟩, ⟨ratMid 1 5, 5⟩] ∧
      (∀ v : ℚ, (Interval.contains ⟨1, ratMid 1 5⟩ v = true ∨
          Interval.contains ⟨ratMid 1 5, 5⟩ v = true) ↔
        Interval.contains ⟨1, 5⟩ v = true) ∧
      (∀ v : ℚ, ¬(Interval.contains ⟨1, ratMid 1 5⟩ v = true ∧
          Interval.contains ⟨ratMid 1 5, 5⟩ v = true)))) :=
  ⟨ratMid_valid, by norm_num,
    c4_subdivide_cases ratMid ratMid_valid ⟨1, 5⟩ (by norm_num)⟩

/-- C5: `Interval::try_new(start, end)` fails exactly when `start ≥ end`
(in the IEEE sense) or either bound is non-finite; for finite bounds with
`start < end` it succeeds and the interval contains its start but not its
end (half-open membership). -/
theorem c5_try_new :
    (∀ s e : F, Interval.tryNew s e = none ↔
      (F.ge s e = true ∨ s.isFinite = false ∨ e.isFinite = false)) ∧
    (∀ a b : ℚ, a < b → ∃ i : Interval,
      Interval.tryNew (F.fin a) (F.fin b) = some i ∧
      i.contains a = true ∧ i.contains b = false) := by
  constructor
  · intro s e
    cases s <;> cases e <;>
      simp [Interval.tryNew, F.lt, F.ge, F.isFinite, not_lt]
  · intro a b h
    refine ⟨⟨a, b⟩, ?_, ?_, ?_⟩
    · simp [Interval.tryNew, F.lt, F.isFinite, F.toRat, h]
    · rw [Interval.contains_iff]
      exact ⟨le_refl a, h⟩
    · rw [Bool.eq_false_iff]
      intro hx
      rw [Interval.contains_iff] at hx
      exact absurd hx.2 (lt_irrefl b)

/-- Witness for C5 on the bounds `1 < 2`. -/
theorem c5_try_new_witness :
    (1 : ℚ) < 2 ∧ ∃ i : Interval,
      Interval.tryNew (F.fin 1) (F.fin 2) = some i ∧
      i.contains 1 = true ∧ i.contains 2 = false :=
  ⟨by norm_num, c5_try_new.2 1 2 (by norm_num)⟩

/-- C6: every point contained in a region (with matching dimension, as the
Rust types force) lies in exactly one of the boxes returned by
`Region::subdivide`, whatever the midpoint function returns on each axis —
in particular also when axes collapse and fewer than 2^N boxes come back. -/
theorem c6_partition (mid : ℚ → ℚ → ℚ) (r : Region) (p : Point)
    (hlen : p.length = r.length) (hc : Region.contains r p = true) :
    (Region.subdivide mid r).countP (fun b => Region.contains b p) = 1 :=
  Region.subdivide_countP mid hlen hc

/-- Witness for C6: the point `(5, 5)` of the scenario region, under the
exact midpoint. -/
theorem c6_partition_witness :
    ([(5 : ℚ), 5] : Point).length = scenarioRegion.length ∧
    Region.contains scenarioRegion [5, 5] = true ∧
    (Region.subdivide ratMid scenarioRegion).countP
      (fun b => Region.contains b [5, 5]) = 1 := by
  refine ⟨rfl, ?_, ?_⟩
  · norm_num [scenarioRegion, Region.contains, Interval.contains]
  · exact c6_partition ratMid scenarioRegion [5, 5] rfl
      (by norm_num [scenarioRegion, Region.contains, Interval.contains])

/-- C1 counterexample: the claim "a failing insert leaves the tree exactly
as it was: no node gains children" is false.  Inserting `(11,5)` (out of
bounds) into a full one-node tree over `[0,10)×[0,10)` with capacity 1
returns an error, yet the node has subdivided: `insert` calls `subdivide`
on a full node before discovering that no child contains the point
(quadtree.rs:80-95), and that mutation is kept. -/
theorem c1_counterexample :
    (insertT id ratMid c1TreeFull [11, 5]).2 = some QErr.noSubtree ∧
    c1TreeFull.subs = none ∧
    ((insertT id ratMid c1TreeFull [11, 5]).1).subs.isSome = true := by
  refine ⟨?_, ?_, ?_⟩ <;>
    norm_num [c1TreeFull, scenarioRegion, QTree.new, insertT, insertL,
      insertFresh, mkChildren, Region.subdivide, Interval.subdivide, cartProd,
      ratMid, Region.contains, Interval.contains, QTree.subs, QTree.push,
      QTree.region]

/-- C1 amended: if `insert` returns an error, no item is added — the
stored items of every node are exactly as before — but the node at which
the failure happened may have gained freshly created (empty) children. -/
theorem c1_failed_insert_items {V : Type} (pt : V → Point) (mid : ℚ → ℚ → ℚ)
    (t : QTree V) (v : V) (h : (insertT pt mid t v).2 ≠ none) :
    allItems (insertT pt mid t v).1 = allItems t :=
  (insertT_items pt mid t v).2 h

/-- Witness for the amended C1 at the counterexample input. -/
theorem c1_failed_insert_items_witness :
    (insertT id ratMid c1TreeFull [11, 5]).2 ≠ none ∧
    allItems (insertT id ratMid c1TreeFull [11, 5]).1 = allItems c1TreeFull := by
  have h : (insertT id ratMid c1TreeFull [11, 5]).2 ≠ none := by
    norm_num [c1TreeFull, scenarioRegion, QTree.new, insertT, insertL,
      insertFresh, mkChildren, Region.subdivide, Interval.subdivide, cartProd,
      ratMid, Region.contains, Interval.contains, QTree.push, QTree.region]
    exact Option.some_ne_none _
  exact ⟨h, c1_failed_insert_items id ratMid c1TreeFull [11, 5] h⟩

/-- C3 counterexample: after the 5th insert the 4 original items do NOT
redistribute among the children: they stay in the root bucket, and the
children hold only the newly inserted `(5,5)`. -/
theorem c3_counterexample :
    scenarioT5.pts = scenarioPoints ∧
    allItemsL (scenarioT5.subs.getD []) = [[5, 5]] ∧
    ¬(([0, 0] : Point) ∈ allItemsL (scenarioT5.subs.getD [])) := by
  refine ⟨?_, ?_, ?_⟩ <;>
    norm_num [scenarioT5, scenarioT4, scenarioPoints, scenarioRegion,
      insertMany, insertT, insertL, insertFresh, mkChildren, Region.subdivide,
      Interval.subdivide, cartProd, ratMid, Region.contains, Interval.contains,
      QTree.new, QTree.push, QTree.subs, QTree.pts, QTree.region, allItemsL,
      allItems]

/-- C3 amended: in the scenario (region `[0,10)×[0,10)`, capacity 4) the
four inserts leave a single leaf with the 4 items and no children; the 5th
insert `(5,5)` succeeds, triggers subdivision into 4 children, exactly the
1 new item lands in a child bucket — the child whose region contains its
coordinates, `[5,10)×[5,10)` — while the 4 original items remain in the
root bucket. -/
theorem c3_scenario :
    (insertMany id ratMid (QTree.new scenarioRegion 4) scenarioPoints).2 = none ∧
    scenarioT4.pts = scenarioPoints ∧
    scenarioT4.subs = none ∧
    (insertT id ratMid scenarioT4 [5, 5]).2 = none ∧
    (scenarioT5.subs.getD []).length = 4 ∧
    scenarioT5.pts = scenarioPoints ∧
    (scenarioT5.subs.getD []).map (fun t => (QTree.region t, QTree.pts t)) =
      [([⟨0, 5⟩, ⟨0, 5⟩], []), ([⟨0, 5⟩, ⟨5, 10⟩], []),
       ([⟨5, 10⟩, ⟨0, 5⟩], []), ([⟨5, 10⟩, ⟨5, 10⟩], [[5, 5]])] := by
  refine ⟨?_, ?_, ?_, ?_, ?_, ?_, ?_⟩ <;>
    norm_num [scenarioT5, scenarioT4, scenarioPoints, scenarioRegion,
      insertMany, insertT, insertL, insertFresh, mkChildren, Region.subdivide,
      Interval.subdivide, cartProd, ratMid, Region.contains, Interval.contains,
      QTree.new, QTree.push, QTree.subs, QTree.pts, QTree.region, allItemsL,
      allItems]

/-- C2: inserting points `p_1..p_k`, all inside the root region and of its
dimension, into a fresh tree of any positive capacity always succeeds, and
querying with the root region afterwards returns exactly the inserted
points — as a permutation of the insertion list, so no point is lost and
none is yielded more than once per insertion, however subdivision
unfolded.  (`Point` is its own `Storable`, and a `Region` used as a query
is its own bounding region and fine predicate, region.rs:81-89.) -/
theorem c2_roundtrip (mid : ℚ → ℚ → ℚ) (hm : MidValid mid) (r : Region)
    (c : Nat) (hc : 1 ≤ c) (ps : List Point)
    (hin : ∀ p ∈ ps, Region.contains r p = true ∧ p.length = r.length) :
    (insertMany id mid (QTree.new r c) ps).2 = none ∧
    List.Perm
      (queryT id r (fun p => Region.contains r p)
        (insertMany id mid (QTree.new r c) ps).1)
      ps := by
  have hWF : WF id mid (QTree.new r c) := WF_of_fresh id mid rfl rfl hc
  obtain ⟨he, hW, hr, hp⟩ :=
    insertMany_spec id mid ps (QTree.new r c) hWF (fun p hp2 => hin p hp2)
  refine ⟨he, ?_⟩
  have hperm : List.Perm (allItems (insertMany id mid (QTree.new r c) ps).1) ps := by
    simpa using hp
  have hq := queryT_perm id mid hm r (fun p => Region.contains r p)
    (fun p _ h => h) (insertMany id mid (QTree.new r c) ps).1 hW
    (by rw [hr]; rfl)
  have hall : (allItems (insertMany id mid (QTree.new r c) ps).1).filter
      (fun v => Region.contains r (id v)) =
      allItems (insertMany id mid (QTree.new r c) ps).1 := by
    rw [List.filter_eq_self]
    intro a ha
    exact (hin a (hperm.mem_iff.mp ha)).1
  rw [hall] at hq
  exact hq.trans hperm

/-- Witness for C2: three collinear points in the scenario region with
capacity 2 (so one subdivision happens). -/
theorem c2_roundtrip_witness :
    MidValid ratMid ∧ (1 : Nat) ≤ 2 ∧
    (∀ p ∈ ([[0, 0], [1, 0], [2, 0]] : List Point),
      Region.contains scenarioRegion p = true ∧ p.length = scenarioRegion.length) ∧
    (insertMany id ratMid (QTree.new scenarioRegion 2) [[0, 0], [1, 0], [2, 0]]).2
      = none ∧
    List.Perm
      (queryT id scenarioRegion (fun p => Region.contains scenarioRegion p)
        (insertMany id ratMid (QTree.new scenarioRegion 2)
          [[0, 0], [1, 0], [2, 0]]).1)
      [[0, 0], [1, 0], [2, 0]] := by
  have hin : ∀ p ∈ ([[0, 0], [1, 0], [2, 0]] : List Point),
      Region.contains scenarioRegion p = true ∧ p.length = scenarioRegion.length := by
    intro p hp
    fin_cases hp <;>
      exact ⟨by norm_num [scenarioRegion, Region.contains, Interval.contains], rfl⟩
  obtain ⟨h1, h2⟩ := c2_roundtrip ratMid ratMid_valid scenarioRegion 2
    (by norm_num) [[0, 0], [1, 0], [2, 0]] hin
  exact ⟨ratMid_valid, by norm_num, hin, h1, h2⟩

/-- C7: over a root region that is unsplittable on every axis (the
midpoint collapses to `start` everywhere), repeated insertion of the same
in-bounds point succeeds for every repetition count — the embedded
`insert` is structurally recursive, mirroring the Rust recursion that
descends one level per call, so no call recurses forever even though
capacity is no longer enforced. -/
theorem c7_unsplittable_accepts {V : Type} (pt : V → Point)
    (mid : ℚ → ℚ → ℚ) (r : Region) (c : Nat) (hc : 1 ≤ c)
    (huns : ∀ i ∈ r, mid i.start i.stop = i.start)
    (v : V) (hcont : Region.contains r (pt v) = true)
    (hlen : (pt v).length = r.length) (k : Nat) :
    (insertMany pt mid (QTree.new r c) (List.replicate k v)).2 = none := by
  have hWF : WF pt mid (QTree.new r c) := WF_of_fresh pt mid rfl rfl hc
  refine (insertMany_spec pt mid (List.replicate k v) (QTree.new r c) hWF ?_).1
  intro w hw
  rw [List.eq_of_mem_replicate hw]
  exact ⟨hcont, hlen⟩

/-- Witness for C7: the one-axis region `[1, 2)` with a midpoint function
that collapses (returns `start`), capacity 1, five coincident inserts. -/
theorem c7_unsplittable_accepts_witness :
    (1 : Nat) ≤ 1 ∧
    (∀ i ∈ ([⟨1, 2⟩] : Region), (fun a _ => a) i.start i.stop = i.start) ∧
    Region.contains [⟨1, 2⟩] [1] = true ∧
    ([(1 : ℚ)] : Point).length = ([⟨1, 2⟩] : Region).length ∧
    (insertMany id (fun a _ => a) (QTree.new [⟨1, 2⟩] 1)
      (List.replicate 5 ([1] : Point))).2 = none := by
  have huns : ∀ i ∈ ([⟨1, 2⟩] : Region), (fun a _ => a) i.start i.stop = i.start :=
    List.forall_mem_singleton.mpr rfl
  have hcont : Region.contains [⟨1, 2⟩] ([1] : Point) = true := by
    norm_num [Region.contains, Interval.contains]
  exact ⟨le_refl 1, huns, hcont, rfl,
    c7_unsplittable_accepts id (fun a _ => a) [⟨1, 2⟩] 1 (le_refl 1) huns
      [1] hcont rfl 5⟩

/-- C8 counterexample: the claim fails for "every fixed query".  First
instance: a query whose fine predicate is not bounded by its bounding
region (bounding region `[5,6)` but predicate constantly true — a `Query`
implementation the trait permits): the two insertion orders of the
multiset `{1, 2}` give different query result sets, because the item that
ends up in the root bucket is always tested while the one in the `[0,5)`
child is pruned away.  Second instance: the same failure with the crate's
own `DistanceQuery`, whose closed-ball predicate `dist ≤ r` is true at the
boundary point `c + r` that its half-open bounding box `[c − r, c + r)`
excludes: over the root `[6,8)` with capacity 1, inserting `{7, 6.5}` in
the two orders and querying with `DistanceQuery(center 5, radius 2)`
yields `{7, 6.5}` in one order but only `{6.5}` in the other — the
boundary point 7 is lost when it lands in the child `[7,8)`, which is
pruned against the bounding box `[3,7)`. -/
theorem c8_counterexample :
    List.Perm ([[1], [2]] : List Point) [[2], [1]] ∧
    queryT id [⟨5, 6⟩] (fun _ => true) c8TreeA = [[1]] ∧
    queryT id [⟨5, 6⟩] (fun _ => true) c8TreeB = [[2]] ∧
    ([1] : Point) ∈ queryT id [⟨5, 6⟩] (fun _ => true) c8TreeA ∧
    ¬(([1] : Point) ∈ queryT id [⟨5, 6⟩] (fun _ => true) c8TreeB) ∧
    List.Perm ([[7], [13 / 2]] : List Point) [[13 / 2], [7]] ∧
    queryT id (DistanceQuery.region (toDistanceBasedQuery [5] 2))
      (DistanceQuery.containsQ (toDistanceBasedQuery [5] 2)) c8dTreeA =
      [[7], [13 / 2]] ∧
    queryT id (DistanceQuery.region (toDistanceBasedQuery [5] 2))
      (DistanceQuery.containsQ (toDistanceBasedQuery [5] 2)) c8dTreeB =
      [[13 / 2]] ∧
    ([7] : Point) ∈ queryT id (DistanceQuery.region (toDistanceBasedQuery [5] 2))
      (DistanceQuery.containsQ (toDistanceBasedQuery [5] 2)) c8dTreeA ∧
    ¬(([7] : Point) ∈ queryT id (DistanceQuery.region (toDistanceBasedQuery [5] 2))
      (DistanceQuery.containsQ (toDistanceBasedQuery [5] 2)) c8dTreeB) := by
  refine ⟨List.Perm.swap _ _ _, ?_, ?_, ?_, ?_, List.Perm.swap _ _ _,
    ?_, ?_, ?_, ?_⟩ <;>
    norm_num [c8TreeA, c8TreeB, c8dTreeA, c8dTreeB, insertMany, insertT,
      insertL, insertFresh, mkChildren, Region.subdivide, Interval.subdivide,
      cartProd, ratMid, Region.contains, Interval.contains, Region.intersects,
      Interval.intersects, QTree.new, QTree.push, QTree.subs, QTree.region,
      queryT, queryL, DistanceQuery.region, DistanceQuery.containsQ,
      toDistanceBasedQuery, sqDist]

/-- C8 amended: restricted to queries whose fine predicate implies
membership in their bounding region, inserting the same multiset of
in-bounds points in any two orders into equivalent fresh trees yields
query results that are equal as multisets (hence as sets).  A `Region`
used as a query satisfies this restriction (its predicate IS its bounding
region, region.rs:81-89); the crate's `DistanceQuery` does not — its
closed ball includes boundary points its half-open bounding box excludes —
and the counterexample shows order independence genuinely fails for it. -/
theorem c8_order_independent {V : Type} (pt : V → Point) (mid : ℚ → ℚ → ℚ)
    (hm : MidValid mid) (r : Region) (c : Nat) (hc : 1 ≤ c)
    (vs1 vs2 : List V) (hperm : List.Perm vs1 vs2)
    (hin : ∀ v ∈ vs1, Region.contains r (pt v) = true ∧ (pt v).length = r.length)
    (qr : Region) (qc : Point → Bool) (hqlen : qr.length = r.length)
    (hq : ∀ p : Point, p.length = qr.length → qc p = true →
      Region.contains qr p = true) :
    List.Perm
      (queryT pt qr qc (insertMany pt mid (QTree.new r c) vs1).1)
      (queryT pt qr qc (insertMany pt mid (QTree.new r c) vs2).1) := by
  have hWF : WF pt mid (QTree.new r c) := WF_of_fresh pt mid rfl rfl hc
  obtain ⟨he1, hW1, hr1, hp1⟩ :=
    insertMany_spec pt mid vs1 (QTree.new r c) hWF (fun v hv => hin v hv)
  obtain ⟨he2, hW2, hr2, hp2⟩ :=
    insertMany_spec pt mid vs2 (QTree.new r c) hWF
      (fun v hv => hin v (hperm.mem_iff.mpr hv))
  have hq1 := queryT_perm pt mid hm qr qc hq _ hW1 (by rw [hr1]; exact hqlen)
  have hq2 := queryT_perm pt mid hm qr qc hq _ hW2 (by rw [hr2]; exact hqlen)
  refine hq1.trans (.trans ?_ hq2.symm)
  refine ((hp1.filter _).trans ?_).trans ((hp2.filter _).symm)
  simp only [allItems_none, QTree.new, List.nil_append]
  exact hperm.filter _

/-- Witness for the amended C8: the scenario region, capacity 1, the two
orders of `{(1,1), (6,6)}`, queried with the box `[0,5)×[0,10)` used as a
`Region` query. -/
theorem c8_order_independent_witness :
    MidValid ratMid ∧ (1 : Nat) ≤ 1 ∧
    List.Perm ([[1, 1], [6, 6]] : List Point) [[6, 6], [1, 1]] ∧
    (∀ v ∈ ([[1, 1], [6, 6]] : List Point),
      Region.contains scenarioRegion (id v) = true ∧
        (id v).length = scenarioRegion.length) ∧
    ([⟨0, 5⟩, ⟨0, 10⟩] : Region).length = scenarioRegion.length ∧
    List.Perm
      (queryT id [⟨0, 5⟩, ⟨0, 10⟩]
        (fun p => Region.contains [⟨0, 5⟩, ⟨0, 10⟩] p)
        (insertMany id ratMid (QTree.new scenarioRegion 1)
          [[1, 1], [6, 6]]).1)
      (queryT id [⟨0, 5⟩, ⟨0, 10⟩]
        (fun p => Region.contains [⟨0, 5⟩, ⟨0, 10⟩] p)
        (insertMany id ratMid (QTree.new scenarioRegion 1)
          [[6, 6], [1, 1]]).1) := by
  have hin : ∀ v ∈ ([[1, 1], [6, 6]] : List Point),
      Region.contains scenarioRegion (id v) = true ∧
        (id v).length = scenarioRegion.length := by
    intro v hv
    fin_cases hv <;>
      exact ⟨by norm_num [scenarioRegion, Region.contains, Interval.contains],
        rfl⟩
  exact ⟨ratMid_valid, le_refl 1, List.Perm.swap _ _ _, hin, rfl,
    c8_order_independent id ratMid ratMid_valid scenarioRegion 1 (le_refl 1)
      [[1, 1], [6, 6]] [[6, 6], [1, 1]] (List.Perm.swap _ _ _) hin
      [⟨0, 5⟩, ⟨0, 10⟩] (fun p => Region.contains [⟨0, 5⟩, ⟨0, 10⟩] p) rfl
      (fun p _ h => h)⟩

/-- C9 (modelled from the spec, since query.rs is absent from the
snapshot): `Point::to_distance_based_query` produces the `DistanceQuery`
with this point as center and the given radius, whose bounding region has
as its i-th interval `[c_i − r, c_i + r]`, and whose fine predicate holds
for `p` exactly when the Euclidean distance (the real square root of the
sum of squared coordinate differences) from the center to `p` is at most
`r`. -/
theorem c9_distance_query (c : Point) (r : ℚ) :
    DistanceQuery.region (toDistanceBasedQuery c r) =
      c.map (fun ci => ⟨ci - r, ci + r⟩) ∧
    ∀ p : Point,
      DistanceQuery.containsQ (toDistanceBasedQuery c r) p = true ↔
        Real.sqrt ((sqDist c p : ℚ) : ℝ) ≤ (r : ℝ) := by
  refine ⟨rfl, ?_⟩
  intro p
  rw [Real.sqrt_le_iff]
  simp only [DistanceQuery.containsQ, toDistanceBasedQuery, Bool.and_eq_true,
    decide_eq_true_eq]
  constructor
  · rintro ⟨h0, hs⟩
    refine ⟨by exact_mod_cast h0, ?_⟩
    have h2 : ((sqDist c p : ℚ) : ℝ) ≤ ((r * r : ℚ) : ℝ) := by exact_mod_cast hs
    calc ((sqDist c p : ℚ) : ℝ) ≤ ((r * r : ℚ) : ℝ) := h2
      _ = (r : ℝ) ^ 2 := by push_cast; ring
  · rintro ⟨h0, hs⟩
    refine ⟨by exact_mod_cast h0, ?_⟩
    have h2 : ((sqDist c p : ℚ) : ℝ) ≤ ((r * r : ℚ) : ℝ) := by
      calc ((sqDist c p : ℚ) : ℝ) ≤ (r : ℝ) ^ 2 := hs
        _ = ((r * r : ℚ) : ℝ) := by push_cast; ring
    exact_mod_cast h2

/-- C10: starting from a fresh tree and running any sequence of inserts of
correctly dimensioned items (failures included — `insertAll` continues
past errors), the structural invariant `WF` holds: every bucket item lies
in the region of its node, and the regions of the children of a node are
exactly the boxes of the subdivision of its region; consequently the root
region is preserved and every stored item lies within it. -/
theorem c10_insert_invariant {V : Type} (pt : V → Point) (mid : ℚ → ℚ → ℚ)
    (hm : MidValid mid) (r : Region) (c : Nat) (hc : 1 ≤ c)
    (vs : List V) (hlen : ∀ v ∈ vs, (pt v).length = r.length) :
    WF pt mid (insertAll pt mid (QTree.new r c) vs) ∧
    (insertAll pt mid (QTree.new r c) vs).region = r ∧
    ∀ v ∈ allItems (insertAll pt mid (QTree.new r c) vs),
      Region.contains r (pt v) = true := by
  have hWF : WF pt mid (QTree.new r c) := WF_of_fresh pt mid rfl rfl hc
  obtain ⟨h1, h2⟩ := insertAll_spec pt mid vs (QTree.new r c) hWF hlen
  refine ⟨h1, h2, ?_⟩
  intro v hv
  have h3 := itemsIn pt mid hm _ h1 v hv
  rw [h2] at h3
  exact h3.2

/-- Witness for C10: a sequence containing an out-of-bounds point (whose
insert fails) between two successful inserts. -/
theorem c10_insert_invariant_witness :
    MidValid ratMid ∧ (1 : Nat) ≤ 1 ∧
    (∀ v ∈ ([[0, 0], [11, 5], [7, 7]] : List Point),
      (id v).length = scenarioRegion.length) ∧
    (WF id ratMid
      (insertAll id ratMid (QTree.new scenarioRegion 1)
        [[0, 0], [11, 5], [7, 7]]) ∧
    (insertAll id ratMid (QTree.new scenarioRegion 1)
      [[0, 0], [11, 5], [7, 7]]).region = scenarioRegion ∧
    ∀ v ∈ allItems (insertAll id ratMid (QTree.new scenarioRegion 1)
        [[0, 0], [11, 5], [7, 7]]),
      Region.contains scenarioRegion (id v) = true) := by
  have hlen : ∀ v ∈ ([[0, 0], [11, 5], [7, 7]] : List Point),
      (id v).length = scenarioRegion.length := by
    intro v hv
    fin_cases hv <;> rfl
  exact ⟨ratMid_valid, le_refl 1, hlen,
    c10_insert_invariant id ratMid ratMid_valid scenarioRegion 1 (le_refl 1)
      [[0, 0], [11, 5], [7, 7]] hlen⟩

end QuadtreeSpec
